import Mathlib

/-!
Verification of the cairo-integer-types test harness and reference
arithmetic models.

Part 1 embeds the outcome classifier of
`cairo-smart-test-demo/cairo_smart_test_framework.py`
(`CairoTest.run`, `SmartTest.__init__`, `SmartTest.run`).

Part 2 embeds the fixed-width reference model used by the
per-width test files (`test_int16.py` / `test_int6.py`).

Part 3 embeds the unbounded sign-magnitude model used by
`test_biguint.py` / `test_bigint.py`.
-/

namespace CairoSmartTest

/-- The four tagged outcomes appended to `results_accumulator` by
`CairoTest.run`.  The Python code appends tuples tagged
"Failure (as expected)", "!!!! Failure (NOT expected) !!!!",
"Success (as expected)", "!!!! Success (NOT expected) !!!!";
success outcomes also carry the results. -/
inductive Outcome (A R : Type) where
  | expectedFailure (args : A)
  | unexpectedFailure (args : A)
  | expectedSuccess (args : A) (results : R)
  | unexpectedSuccess (args : A) (results : R)
deriving DecidableEq, Repr

/-- The behaviour of an `AbstractCairoTestClass` as observed by
`CairoTest.run`: invoking the Cairo function on given arguments either
raises an exception (of type `E`) or returns results (of type `R`);
each predicate, evaluated on the arguments (and results), either
raises or completes. -/
structure AbstractCairoTestClass (A E R : Type) where
  invoke : A → Except E R
  failure_function : A → Except E Unit
  success_function : A → R → Except E Unit

/-- Append an outcome to the accumulator if one is attached
(`if results_accumulator != None: results_accumulator.append(...)`). -/
def appendOutcome {A R : Type} (acc : Option (List (Outcome A R)))
    (o : Outcome A R) : Option (List (Outcome A R)) :=
  match acc with
  | none => none
  | some l => some (l ++ [o])

/-- Embedding of `CairoTest.run` (cairo_smart_test_framework.py,
lines 94-146).  Returns the control outcome (normal return or the
propagated exception) together with the final accumulator.

Two details are transcribed from the Python exactly:
* in the invocation-raised / failure-predicate-raised branch the bare
  `raise` sits in the innermost `except:` block, so the active
  exception it re-raises is the one raised by `failure_function`,
  not the original invocation failure;
* in the invocation-succeeded / success-predicate-raised branch the
  `raise` statement is indented inside the
  `if results_accumulator != None:` block, so with no accumulator
  attached the function falls through and returns normally. -/
def CairoTest.run {A E R : Type} (test_class : AbstractCairoTestClass A E R)
    (argument_values : A) (results_accumulator : Option (List (Outcome A R))) :
    Except E Unit × Option (List (Outcome A R)) :=
  match test_class.invoke argument_values with
  | Except.error _ =>
    match test_class.failure_function argument_values with
    | Except.ok _ =>
      (Except.ok (), appendOutcome results_accumulator (Outcome.expectedFailure argument_values))
    | Except.error ePred =>
      (Except.error ePred, appendOutcome results_accumulator (Outcome.unexpectedFailure argument_values))
  | Except.ok results =>
    match test_class.success_function argument_values results with
    | Except.ok _ =>
      (Except.ok (), appendOutcome results_accumulator (Outcome.expectedSuccess argument_values results))
    | Except.error ePred =>
      match results_accumulator with
      | none => (Except.ok (), none)
      | some l => (Except.error ePred, some (l ++ [Outcome.unexpectedSuccess argument_values results]))

/-- State of a `SmartTest` harness (test_object, run_tests, LastTest,
results_accumulator). -/
structure SmartTest (T A E R : Type) where
  test_object : T
  run_tests : Bool
  LastTest : Option (AbstractCairoTestClass A E R)
  results_accumulator : Option (List (Outcome A R))

/-- Embedding of `SmartTest.__init__` (lines 174-191): given exactly one
of `test_object` and `filename`, build the harness state (compiling the
file via `compileFn` in the filename case); otherwise raise `ValueError`
(modelled as `Except.error ()`), before any of the state fields are
initialised. -/
def SmartTest.init {T F A E R : Type} (compileFn : F → T)
    (test_object : Option T) (filename : Option F) :
    Except Unit (SmartTest T A E R) :=
  if filename.isNone ∧ test_object.isSome then
    match test_object with
    | some t =>
      Except.ok { test_object := t, run_tests := true, LastTest := none,
                  results_accumulator := none }
    | none => Except.error ()
  else if filename.isSome ∧ test_object.isNone then
    match filename with
    | some f =>
      Except.ok { test_object := compileFn f, run_tests := true, LastTest := none,
                  results_accumulator := none }
    | none => Except.error ()
  else
    Except.error ()

/-- Embedding of `SmartTest.run` (lines 205-214): when `run_tests` is
set, delegate to `CairoTest.run` (whose raised exception, if any,
propagates before the `self.LastTest = ...` assignment is reached);
the `LastTest` stash is only written on the fall-through path. -/
def SmartTest.run {T A E R : Type} (st : SmartTest T A E R)
    (SomeCairoTestClass : AbstractCairoTestClass A E R) (some_arguments : A) :
    Except E Unit × SmartTest T A E R :=
  if st.run_tests then
    match CairoTest.run SomeCairoTestClass some_arguments st.results_accumulator with
    | (Except.ok _, accNew) =>
      (Except.ok (), { st with results_accumulator := accNew,
                               LastTest := some SomeCairoTestClass })
    | (Except.error e, accNew) =>
      (Except.error e, { st with results_accumulator := accNew })
  else
    (Except.ok (), { st with LastTest := some SomeCairoTestClass })

/-- A concrete test-class behaviour whose invocation succeeds (returning 0)
and whose success predicate raises exception 7. -/
def succRaises : AbstractCairoTestClass Unit Nat Nat :=
  { invoke := fun _ => Except.ok 0,
    failure_function := fun _ => Except.ok (),
    success_function := fun _ _ => Except.error 7 }

/-- A concrete test-class behaviour whose invocation raises exception 1
and whose failure predicate raises exception 2. -/
def bothRaise : AbstractCairoTestClass Unit Nat Unit :=
  { invoke := fun _ => Except.error 1,
    failure_function := fun _ => Except.error 2,
    success_function := fun _ _ => Except.ok () }

/-- C1: the claim fails on the code.  When invocation succeeds, the
success predicate raises, and no accumulator is attached, `CairoTest.run`
returns normally (swallowing the exception) instead of propagating it;
with an accumulator attached the same combination does propagate.  The
other three combinations route as the claim states. -/
theorem C1_unexpected_success_swallowed_without_accumulator :
    CairoTest.run succRaises () none = (Except.ok (), none) ∧
    CairoTest.run succRaises () (some []) =
      (Except.error 7, some [Outcome.unexpectedSuccess () 0]) := by
  exact ⟨rfl, rfl⟩

/-- C2: the claim fails on the code.  Whether the accumulator is attached
changes control flow: on the invocation-succeeded / success-predicate-raises
combination, `CairoTest.run` returns normally with `results_accumulator = none`
but raises with `results_accumulator = some []`. -/
theorem C2_accumulator_changes_control_flow :
    (CairoTest.run succRaises () none).1 = Except.ok () ∧
    (CairoTest.run succRaises () (some [])).1 = Except.error 7 := by
  exact ⟨rfl, rfl⟩

/-- C3 counterexample: invocation raises exception 1, the failure predicate
raises exception 2, and `CairoTest.run` propagates 2 (the predicate's
exception), not the original invocation failure 1, while recording an
unexpected failure. -/
theorem C3_counterexample_predicate_exception_propagates :
    CairoTest.run bothRaise () (some []) =
      (Except.error 2, some [Outcome.unexpectedFailure ()]) ∧ (2 : Nat) ≠ 1 := by
  exact ⟨rfl, by decide⟩

/-- C3 (amended): when invocation raises and the failure predicate also
raises, `CairoTest.run` records an unexpected failure and re-raises the
exception raised by the failure predicate (the active exception of the
innermost handler), for any accumulator. -/
theorem C3_unexpected_failure_raises_predicate_exception
    {A E R : Type} (tc : AbstractCairoTestClass A E R) (args : A)
    (acc : Option (List (Outcome A R))) (eInv ePred : E)
    (hInv : tc.invoke args = Except.error eInv)
    (hPred : tc.failure_function args = Except.error ePred) :
    CairoTest.run tc args acc =
      (Except.error ePred, appendOutcome acc (Outcome.unexpectedFailure args)) := by
  unfold CairoTest.run
  rw [hInv, hPred]

/-- Witness for C3's amended theorem at the concrete behaviour `bothRaise`. -/
theorem C3_unexpected_failure_witness :
    CairoTest.run bothRaise () none =
      (Except.error 2, appendOutcome none (Outcome.unexpectedFailure ())) :=
  C3_unexpected_failure_raises_predicate_exception bothRaise () none 1 2 rfl rfl

/-- C9 counterexample: starting from a fresh harness (LastTest = none) with
`run_tests = true`, a call to `SmartTest.run` on a test class whose
underlying run raises leaves `LastTest` at `none`, so it does not equal the
test class passed in. -/
theorem C9_counterexample_LastTest_not_overwritten_on_raise :
    ((SmartTest.run
        { test_object := (), run_tests := true, LastTest := none,
          results_accumulator := none }
        bothRaise ()).2).LastTest ≠ some bothRaise := by
  intro h
  simp only [SmartTest.run, CairoTest.run, bothRaise, appendOutcome, if_true] at h
  exact Option.noConfusion h

/-- C9 (amended): `SmartTest.run` overwrites `LastTest` with the test class
exactly on calls that return normally (including all calls made while
`run_tests` is false); a call whose underlying `CairoTest.run` raises
propagates the exception before the assignment, leaving `LastTest`
unchanged. -/
theorem C9_LastTest_update_characterization
    {T A E R : Type} (st : SmartTest T A E R)
    (tc : AbstractCairoTestClass A E R) (args : A) :
    (SmartTest.run st tc args).2.LastTest =
      (if (SmartTest.run st tc args).1.isOk then some tc else st.LastTest) := by
  unfold SmartTest.run
  by_cases h : st.run_tests
  · simp only [h, if_true]
    rcases hres : CairoTest.run tc args st.results_accumulator with ⟨ctl, accNew⟩
    cases ctl <;> simp [Except.isOk, Except.toBool]
  · simp [h, Except.isOk, Except.toBool]

/-- C10: `SmartTest.__init__` succeeds precisely when exactly one of
`test_object` and `filename` is given, in which case `run_tests = true`,
`LastTest = none` and `results_accumulator = none`; with both or neither
it raises `ValueError` and no state is initialised. -/
theorem C10_init_characterization
    {T F A E R : Type} (compileFn : F → T)
    (tobj : Option T) (fname : Option F) :
    (SmartTest.init compileFn tobj fname : Except Unit (SmartTest T A E R)) =
      (match tobj, fname with
       | some t, none =>
         Except.ok { test_object := t, run_tests := true, LastTest := none,
                     results_accumulator := none }
       | none, some f =>
         Except.ok { test_object := compileFn f, run_tests := true, LastTest := none,
                     results_accumulator := none }
       | _, _ => Except.error ()) := by
  cases tobj <;> cases fname <;> rfl

end CairoSmartTest

namespace FixedWidth

/-- `DEFAULT_PRIME` from starkware.cairo.lang.cairo_constants:
2^251 + 17·2^192 + 1. -/
def DEFAULT_PRIME : ℤ := 2 ^ 251 + 17 * 2 ^ 192 + 1

/-- `RC_BOUND = 2 ** 128`, fixed by the Cairo system. -/
def RC_BOUND : ℤ := 2 ^ 128

/-- `WORD_SIZE = 2 ** BIT_LENGTH`. -/
def WORD_SIZE (W : ℕ) : ℤ := 2 ^ W

/-- `SHIFT = 2 ** (BIT_LENGTH - 1)`. -/
def SHIFT (W : ℕ) : ℤ := 2 ^ (W - 1)

/-- `MIN_VAL = -SHIFT` (signed model). -/
def MIN_VAL (W : ℕ) : ℤ := -SHIFT W

/-- `MAX_VAL = SHIFT - 1` (signed model). -/
def MAX_VAL (W : ℕ) : ℤ := SHIFT W - 1

/-- In-range predicate for the signed width-W model
(`num_check`: valid iff MIN ≤ a ≤ MAX). -/
def inRange (W : ℕ) (a : ℤ) : Prop := MIN_VAL W ≤ a ∧ a ≤ MAX_VAL W

instance (W : ℕ) (a : ℤ) : Decidable (inRange W a) := by
  unfold inRange; infer_instance

/-- `felt_to_num` from test_int16.py / test_int6.py:
`a - DEFAULT_PRIME if a >= RC_BOUND else a`. -/
def felt_to_num (a : ℤ) : ℤ := if RC_BOUND ≤ a then a - DEFAULT_PRIME else a

/-- `assert_felt_eq_num(a, b)`: `a` is a felt and `a ≡ b` modulo
DEFAULT_PRIME (`assert 0 <= a < DEFAULT_PRIME; assert (a - b) % DEFAULT_PRIME == 0`). -/
def assert_felt_eq_num (a b : ℤ) : Prop :=
  (0 ≤ a ∧ a < DEFAULT_PRIME) ∧ (a - b) % DEFAULT_PRIME = 0

/-- `eq_with_overflow(expected_num, actual_felt_returned, overflow_bit)`
from test_int16.py lines 294-303: the shared oracle for `add` and `sub`. -/
def eq_with_overflow (W : ℕ) (expected_num actual_felt_returned overflow_bit : ℤ) : Prop :=
  if expected_num > MAX_VAL W then
    assert_felt_eq_num actual_felt_returned (expected_num - WORD_SIZE W) ∧
      assert_felt_eq_num overflow_bit 1
  else if expected_num < MIN_VAL W then
    assert_felt_eq_num actual_felt_returned (expected_num + WORD_SIZE W) ∧
      assert_felt_eq_num overflow_bit (-1)
  else
    assert_felt_eq_num actual_felt_returned expected_num ∧
      assert_felt_eq_num overflow_bit 0

/-- The overflow rule exactly as the spec words it: from the exact
mathematical value v, the expected (result, flag) pair is
(v − WORD_SIZE, +1) if v > MAX, (v + WORD_SIZE, −1) if v < MIN,
and (v, 0) otherwise. -/
def overflow_rule_spec (W : ℕ) (v : ℤ) : ℤ × ℤ :=
  if v > MAX_VAL W then (v - WORD_SIZE W, 1)
  else if v < MIN_VAL W then (v + WORD_SIZE W, -1)
  else (v, 0)

/-- `sign_of_a_in = 1 if 0 <= a else -1` (test__div_rem). -/
def sign_of (a : ℤ) : ℤ := if 0 ≤ a then 1 else -1

/-- The success predicate of `test__div_rem` (test_int16.py lines 363-397,
test_int6.py lines 392-428): corner cases for zero operands and divisor −1,
otherwise the truncated-division characterisation of quotient and
remainder; the felt outputs are first massaged through `felt_to_num`. -/
def div_rem_success (W : ℕ) (a_in b_in quotient remainder : ℤ) : Prop :=
  let quotient_as_int := felt_to_num quotient
  let remainder_as_int := felt_to_num remainder
  if b_in = 0 ∨ a_in = 0 then
    quotient_as_int = 0 ∧ remainder_as_int = 0
  else if b_in = -1 ∧ a_in ≠ MIN_VAL W then
    quotient_as_int = -a_in ∧ remainder_as_int = 0
  else if b_in = -1 ∧ a_in = MIN_VAL W then
    quotient_as_int = a_in ∧ remainder_as_int = 0
  else
    (0 ≤ sign_of a_in * remainder_as_int ∧
       sign_of a_in * remainder_as_int < sign_of b_in * b_in) ∧
    a_in = b_in * quotient_as_int + remainder_as_int

/-- Modelled from the spec: the Cairo implementation of `div_rem` is not
under src (only its test is).  The spec describes Euclidean division in
which the remainder's sign matches the dividend's or is zero (truncated
division), with corner cases: divisor zero or dividend zero ⇒ (0,0);
divisor −1 with dividend ≠ MIN ⇒ (−dividend, 0); divisor −1 with
dividend = MIN (self-negation fixpoint) ⇒ (dividend, 0). -/
def div_rem (W : ℕ) (a b : ℤ) : ℤ × ℤ :=
  if b = 0 ∨ a = 0 then (0, 0)
  else if b = -1 then (if a = MIN_VAL W then (a, 0) else (-a, 0))
  else (sign_of a * sign_of b * ((a.natAbs / b.natAbs : ℕ) : ℤ),
        sign_of a * ((a.natAbs % b.natAbs : ℕ) : ℤ))

/-- Encoding of an integer as a felt crossing the external boundary. -/
def num_to_felt (x : ℤ) : ℤ := x % DEFAULT_PRIME

set_option maxRecDepth 4000 in
lemma assert_felt_eq_num_iff (a b : ℤ) :
    assert_felt_eq_num a b ↔ a = b % DEFAULT_PRIME := by
  unfold assert_felt_eq_num DEFAULT_PRIME
  omega

set_option maxRecDepth 4000 in
lemma felt_to_num_num_to_felt (x : ℤ)
    (h1 : RC_BOUND - DEFAULT_PRIME ≤ x) (h2 : x < RC_BOUND) :
    felt_to_num (num_to_felt x) = x := by
  unfold felt_to_num num_to_felt RC_BOUND DEFAULT_PRIME at *
  split <;> omega

lemma sign_of_mul_self (a : ℤ) : sign_of a * sign_of a = 1 := by
  unfold sign_of; split <;> norm_num

lemma sign_of_mul_natAbs (a : ℤ) : sign_of a * (a.natAbs : ℤ) = a := by
  unfold sign_of; split <;> omega

lemma sign_of_mul (b : ℤ) : sign_of b * b = (b.natAbs : ℤ) := by
  unfold sign_of; split <;> omega

lemma eq_with_overflow_iff (W : ℕ) (v res ov : ℤ) :
    eq_with_overflow W v res ov ↔
      res = num_to_felt (overflow_rule_spec W v).1 ∧
      ov = num_to_felt (overflow_rule_spec W v).2 := by
  unfold eq_with_overflow overflow_rule_spec num_to_felt
  split_ifs <;> simp only [assert_felt_eq_num_iff]

lemma overflow_rule_spec_boundary (W : ℕ) (hW : 1 ≤ W) :
    overflow_rule_spec W (MAX_VAL W + 1) = (MIN_VAL W, 1) := by
  have hws : WORD_SIZE W = 2 * SHIFT W := by
    unfold WORD_SIZE SHIFT
    have hw : W - 1 + 1 = W := by omega
    calc (2 : ℤ) ^ W = 2 ^ (W - 1 + 1) := by rw [hw]
      _ = 2 * 2 ^ (W - 1) := by rw [pow_succ]; ring
  unfold overflow_rule_spec
  rw [if_pos (by omega : MAX_VAL W + 1 > MAX_VAL W)]
  unfold MAX_VAL MIN_VAL at *
  rw [Prod.mk.injEq]
  constructor
  · omega
  · rfl

/-- C5: for in-range signed operands, the test oracle `eq_with_overflow`
applied to the exact sum (respectively difference) accepts exactly the
felt encodings of the pair given by the spec's overflow rule —
(v − WORD_SIZE, +1) if v > MAX, (v + WORD_SIZE, −1) if v < MIN,
(v, 0) otherwise — and at the boundary the rule maps MAX + 1 to
(MIN, +1), i.e. add(MAX, 1) = (MIN, +1). -/
theorem C5_add_sub_overflow_rule (W : ℕ) (a b res ov : ℤ)
    (hW : 1 ≤ W) (ha : inRange W a) (hb : inRange W b) :
    (eq_with_overflow W (a + b) res ov ↔
      res = num_to_felt (overflow_rule_spec W (a + b)).1 ∧
      ov = num_to_felt (overflow_rule_spec W (a + b)).2) ∧
    (eq_with_overflow W (a - b) res ov ↔
      res = num_to_felt (overflow_rule_spec W (a - b)).1 ∧
      ov = num_to_felt (overflow_rule_spec W (a - b)).2) ∧
    overflow_rule_spec W (MAX_VAL W + 1) = (MIN_VAL W, 1) :=
  ⟨eq_with_overflow_iff W (a + b) res ov,
   eq_with_overflow_iff W (a - b) res ov,
   overflow_rule_spec_boundary W hW⟩

/-- Witness for C5 at width 6 with a = MAX = 31, b = 1. -/
theorem C5_add_sub_overflow_rule_witness :
    overflow_rule_spec 6 (MAX_VAL 6 + 1) = (MIN_VAL 6, 1) :=
  (C5_add_sub_overflow_rule 6 31 1 0 0 (by decide) (by decide) (by decide)).2.2

/-- C4: at any width 1 ≤ W ≤ 128 and for in-range operands, the felt
encodings of `div_rem`'s quotient and remainder satisfy the success
predicate of `test__div_rem` — (0,0) when a divisor or dividend is 0,
(−a, 0) for divisor −1 with a ≠ MIN, (a, 0) for divisor −1 with a = MIN,
and otherwise a = b·q + r with 0 ≤ sign(a)·r < sign(b)·b — and the
width-6 literal cases hold: div_rem(7,2) = (3,1), div_rem(7,−2) = (−3,1),
div_rem(−7,2) = (−3,−1), div_rem(−7,−2) = (3,−1). -/
theorem C4_div_rem_meets_test_predicate (W : ℕ) (a b : ℤ)
    (hW1 : 1 ≤ W) (hW2 : W ≤ 128) (ha : inRange W a) (hb : inRange W b) :
    div_rem_success W a b (num_to_felt (div_rem W a b).1)
      (num_to_felt (div_rem W a b).2) ∧
    div_rem 6 7 2 = (3, 1) ∧ div_rem 6 7 (-2) = (-3, 1) ∧
    div_rem 6 (-7) 2 = (-3, -1) ∧ div_rem 6 (-7) (-2) = (3, -1) := by
  refine ⟨?_, by decide, by decide, by decide, by decide⟩
  have hspow : SHIFT W ≤ 2 ^ 127 := by
    unfold SHIFT
    exact pow_le_pow_right₀ (by norm_num) (by omega)
  have hspos : (0 : ℤ) < SHIFT W := by
    unfold SHIFT
    exact pow_pos (by norm_num) _
  have hround : ∀ x : ℤ, -SHIFT W ≤ x → x ≤ SHIFT W →
      felt_to_num (num_to_felt x) = x := by
    intro x h1 h2
    apply felt_to_num_num_to_felt
    · unfold RC_BOUND DEFAULT_PRIME
      omega
    · unfold RC_BOUND
      omega
  obtain ⟨ha1, ha2⟩ := ha
  obtain ⟨hb1, hb2⟩ := hb
  simp only [MIN_VAL, MAX_VAL] at ha1 ha2 hb1 hb2
  by_cases hz : b = 0 ∨ a = 0
  · unfold div_rem div_rem_success
    rw [if_pos hz, if_pos hz]
    constructor <;>
      · show felt_to_num (num_to_felt 0) = 0
        exact hround 0 (by omega) (by omega)
  · by_cases hm1 : b = -1
    · by_cases hmin : a = MIN_VAL W
      · unfold div_rem div_rem_success
        rw [if_neg hz, if_neg hz, if_pos hm1, if_pos hmin,
            if_neg (fun h => h.2 hmin), if_pos ⟨hm1, hmin⟩]
        constructor
        · show felt_to_num (num_to_felt a) = a
          exact hround a (by omega) (by omega)
        · show felt_to_num (num_to_felt 0) = 0
          exact hround 0 (by omega) (by omega)
      · unfold div_rem div_rem_success
        rw [if_neg hz, if_neg hz, if_pos hm1, if_neg hmin, if_pos ⟨hm1, hmin⟩]
        constructor
        · show felt_to_num (num_to_felt (-a)) = -a
          exact hround (-a) (by omega) (by omega)
        · show felt_to_num (num_to_felt 0) = 0
          exact hround 0 (by omega) (by omega)
    · -- main branch: truncated division via natAbs
      have hbne : b ≠ 0 := fun h => hz (Or.inl h)
      have hane : a ≠ 0 := fun h => hz (Or.inr h)
      have hmpos : 0 < b.natAbs := Int.natAbs_pos.mpr hbne
      have hmod : a.natAbs % b.natAbs < b.natAbs := Nat.mod_lt _ hmpos
      have hdivle : a.natAbs / b.natAbs ≤ a.natAbs := Nat.div_le_self _ _
      have hq0 : (0 : ℤ) ≤ ((a.natAbs / b.natAbs : ℕ) : ℤ) := Int.natCast_nonneg _
      have hr0 : (0 : ℤ) ≤ ((a.natAbs % b.natAbs : ℕ) : ℤ) := Int.natCast_nonneg _
      have hdivle2 : ((a.natAbs / b.natAbs : ℕ) : ℤ) ≤ (a.natAbs : ℤ) := by
        exact_mod_cast hdivle
      have hmod2 : ((a.natAbs % b.natAbs : ℕ) : ℤ) < (b.natAbs : ℤ) := by
        exact_mod_cast hmod
      have hH : (b.natAbs : ℤ) * (a.natAbs / b.natAbs : ℕ) +
          ((a.natAbs % b.natAbs : ℕ) : ℤ) = (a.natAbs : ℤ) := by
        exact_mod_cast congrArg (Nat.cast : ℕ → ℤ) (Nat.div_add_mod a.natAbs b.natAbs)
      unfold div_rem div_rem_success
      rw [if_neg hz, if_neg hz, if_neg hm1,
          if_neg (fun h => hm1 h.1), if_neg (fun h => hm1 h.1)]
      have hq : felt_to_num (num_to_felt (sign_of a * sign_of b *
          ((a.natAbs / b.natAbs : ℕ) : ℤ))) =
          sign_of a * sign_of b * ((a.natAbs / b.natAbs : ℕ) : ℤ) := by
        apply hround
        · unfold sign_of
          split_ifs <;> omega
        · unfold sign_of
          split_ifs <;> omega
      have hr : felt_to_num (num_to_felt (sign_of a *
          ((a.natAbs % b.natAbs : ℕ) : ℤ))) =
          sign_of a * ((a.natAbs % b.natAbs : ℕ) : ℤ) := by
        apply hround
        · unfold sign_of
          split_ifs <;> omega
        · unfold sign_of
          split_ifs <;> omega
      rw [hq, hr]
      unfold sign_of
      split_ifs with hsa hsb hsb
      · refine ⟨⟨by omega, by omega⟩, ?_⟩
        have hm : ((b.natAbs : ℕ) : ℤ) = b := by omega
        have hn : ((a.natAbs : ℕ) : ℤ) = a := by omega
        rw [hm, hn] at hH
        linarith [hH]
      · refine ⟨⟨by omega, by omega⟩, ?_⟩
        have hm : ((b.natAbs : ℕ) : ℤ) = -b := by omega
        have hn : ((a.natAbs : ℕ) : ℤ) = a := by omega
        rw [hm, hn] at hH
        linarith [hH]
      · refine ⟨⟨by omega, by omega⟩, ?_⟩
        have hm : ((b.natAbs : ℕ) : ℤ) = b := by omega
        have hn : ((a.natAbs : ℕ) : ℤ) = -a := by omega
        rw [hm, hn] at hH
        linarith [hH]
      · refine ⟨⟨by omega, by omega⟩, ?_⟩
        have hm : ((b.natAbs : ℕ) : ℤ) = -b := by omega
        have hn : ((a.natAbs : ℕ) : ℤ) = -a := by omega
        rw [hm, hn] at hH
        linarith [hH]

/-- Witness for C4 at width 6 with a = 7, b = 2. -/
theorem C4_div_rem_meets_test_predicate_witness :
    div_rem_success 6 7 2 (num_to_felt (div_rem 6 7 2).1)
      (num_to_felt (div_rem 6 7 2).2) :=
  (C4_div_rem_meets_test_predicate 6 7 2 (by decide) (by decide)
    (by decide) (by decide)).1

end FixedWidth

namespace BigNum

/-!
The unbounded sign-magnitude model.  A magnitude (`num`) is a
little-endian list of radix-R digits; the EON sentinel of the external
boundary format is not part of the abstract value.  `biguint_tools.py`
itself is not under src (only its tests are), so its functions are
modelled from the spec where needed.
-/

/-- Modelled from the spec: `num_to_int` of biguint_tools is not under
src; the spec defines it as reassembly via Σ digit_i·R^i. -/
def num_to_int (R : ℕ) : List ℕ → ℕ
  | [] => 0
  | d :: rest => d + R * num_to_int R rest

/-- Modelled from the spec: `int_to_num` of biguint_tools is not under
src; the spec defines it for n ≥ 0 as decomposition into base-R digits,
least-significant first, dropping trailing (most-significant) zero
digits, with value 0 the empty digit sequence.  (The `R ≤ 1` guard only
makes the recursion total; the model is used with R = 2^D ≥ 16.) -/
def int_to_num (R : ℕ) (n : ℕ) : List ℕ :=
  if n = 0 ∨ R ≤ 1 then [] else n % R :: int_to_num R (n / R)
termination_by n
decreasing_by exact Nat.div_lt_self (by omega) (by omega)

/-- Modelled from the spec: the canonical-form invariant `is_num` — every
digit lies in [0, R−1] and the sequence does not end in a zero digit. -/
def is_num (R : ℕ) (m : List ℕ) : Prop :=
  (∀ d ∈ m, d < R) ∧ m.getLast? ≠ some 0

instance (R : ℕ) (m : List ℕ) : Decidable (is_num R m) := by
  unfold is_num; infer_instance

/-- `int_to_signed_abs` from test_biguint.py:
`lambda a: (1, a) if a >= 0 else (-1, -a)`. -/
def int_to_sign_and_abs (a : ℤ) : ℤ × ℕ :=
  if 0 ≤ a then (1, a.toNat) else (-1, (-a).toNat)

/-- `int_to_bigint` from test_bigint.py / test_biguint.py: split into sign
and absolute value, then convert the magnitude. -/
def int_to_bigint (R : ℕ) (a : ℤ) : ℤ × List ℕ :=
  ((int_to_sign_and_abs a).1, int_to_num R (int_to_sign_and_abs a).2)

/-- `bigint_to_int` from test_bigint.py / test_biguint.py:
`a_sign * num_to_int(a_abs)`. -/
def bigint_to_int (R : ℕ) (x : ℤ × List ℕ) : ℤ :=
  x.1 * (num_to_int R x.2 : ℤ)

/-- `is_bigint` from test_bigint.py: the sign is ±1 and the magnitude is
canonical. -/
def is_bigint (R : ℕ) (x : ℤ × List ℕ) : Prop :=
  (x.1 = -1 ∨ x.1 = 1) ∧ is_num R x.2

instance (R : ℕ) (x : ℤ × List ℕ) : Decidable (is_bigint R x) := by
  unfold is_bigint; infer_instance

lemma int_to_num_zero (R : ℕ) : int_to_num R 0 = [] := by
  rw [int_to_num]
  simp

lemma num_to_int_int_to_num (R : ℕ) (hR : 2 ≤ R) (n : ℕ) :
    num_to_int R (int_to_num R n) = n := by
  induction n using Nat.strong_induction_on with
  | _ n ih =>
    rw [int_to_num]
    split
    · rename_i h
      rcases h with h | h
      · simp [num_to_int, h]
      · omega
    · rename_i h
      have hn : n ≠ 0 := fun hc => h (Or.inl hc)
      have hrec := ih (n / R) (Nat.div_lt_self (by omega) (by omega))
      simp only [num_to_int, hrec]
      exact Nat.mod_add_div n R

lemma num_to_int_pos (R : ℕ) (hR : 2 ≤ R) (m : List ℕ)
    (hm : is_num R m) (hne : m ≠ []) : 0 < num_to_int R m := by
  induction m with
  | nil => exact absurd rfl hne
  | cons d rest ih =>
    cases rest with
    | nil =>
      have : d ≠ 0 := by
        have := hm.2
        simp only [List.getLast?_singleton] at this
        exact fun hc => this (by rw [hc])
      simp only [num_to_int]
      omega
    | cons d2 rest2 =>
      have hrest : is_num R (d2 :: rest2) :=
        ⟨fun x hx => hm.1 x (List.mem_cons_of_mem d hx),
         by have := hm.2; rwa [List.getLast?_cons_cons] at this⟩
      have hpos := ih hrest (by simp)
      have hmul := Nat.mul_pos (show 0 < R by omega) hpos
      have hval : num_to_int R (d :: d2 :: rest2) =
          d + R * num_to_int R (d2 :: rest2) := rfl
      rw [hval]
      omega

lemma int_to_num_num_to_int (R : ℕ) (hR : 2 ≤ R) (m : List ℕ)
    (hm : is_num R m) : int_to_num R (num_to_int R m) = m := by
  induction m with
  | nil => exact int_to_num_zero R
  | cons d rest ih =>
    have hd : d < R := hm.1 d (List.mem_cons_self d rest)
    have hrest : is_num R rest := by
      refine ⟨fun x hx => hm.1 x (List.mem_cons_of_mem d hx), ?_⟩
      cases rest with
      | nil => simp
      | cons d2 rest2 =>
        have := hm.2
        rwa [List.getLast?_cons_cons] at this
    have hval : num_to_int R (d :: rest) = d + R * num_to_int R rest := rfl
    have hnz : ¬(num_to_int R (d :: rest) = 0 ∨ R ≤ 1) := by
      intro h
      rcases h with h | h
      · rw [hval] at h
        have hd0 : d = 0 := by omega
        have hr0 : num_to_int R rest = 0 := by
          rcases Nat.eq_zero_or_pos (num_to_int R rest) with h0 | h0
          · exact h0
          · have := Nat.mul_pos (show 0 < R by omega) h0
            omega
        cases hrest2 : rest with
        | nil =>
          subst hrest2
          have := hm.2
          simp only [List.getLast?_singleton] at this
          exact this (by rw [hd0])
        | cons d2 rest2 =>
          have := num_to_int_pos R hR rest hrest (by rw [hrest2]; simp)
          omega
      · omega
    rw [int_to_num, if_neg hnz, hval]
    have h1 : (d + R * num_to_int R rest) % R = d := by
      rw [Nat.add_mul_mod_self_left]
      exact Nat.mod_eq_of_lt hd
    have h2 : (d + R * num_to_int R rest) / R = num_to_int R rest := by
      rw [Nat.add_mul_div_left d _ (show 0 < R by omega)]
      rw [Nat.div_eq_of_lt hd]
      omega
    rw [h1, h2, ih hrest]

/-- C6: the sign round-trip laws.  `bigint_to_int ∘ int_to_bigint` is the
identity on every integer; `int_to_bigint ∘ bigint_to_int` is the
identity on every canonical sign-magnitude pair except (−1, []), which
normalizes to (+1, []). -/
theorem C6_sign_round_trip (R : ℕ) (hR : 2 ≤ R) :
    (∀ n : ℤ, bigint_to_int R (int_to_bigint R n) = n) ∧
    (∀ x : ℤ × List ℕ, is_bigint R x → x ≠ (-1, ([] : List ℕ)) →
      int_to_bigint R (bigint_to_int R x) = x) ∧
    int_to_bigint R (bigint_to_int R (-1, ([] : List ℕ))) = (1, ([] : List ℕ)) := by
  have hto : ∀ a : ℤ, int_to_bigint R a =
      (if 0 ≤ a then (1 : ℤ) else -1,
       int_to_num R (if 0 ≤ a then a.toNat else (-a).toNat)) := by
    intro a
    unfold int_to_bigint int_to_sign_and_abs
    by_cases h : 0 ≤ a
    · rw [if_pos h, if_pos h, if_pos h]
    · rw [if_neg h, if_neg h, if_neg h]
  have hzero : int_to_bigint R (bigint_to_int R (-1, ([] : List ℕ))) =
      (1, ([] : List ℕ)) := by
    have h0 : bigint_to_int R (-1, ([] : List ℕ)) = 0 := by
      unfold bigint_to_int num_to_int
      ring
    rw [h0, hto 0]
    norm_num [int_to_num_zero R]
  refine ⟨?_, ?_, hzero⟩
  · intro n
    rw [hto n]
    unfold bigint_to_int
    by_cases h : 0 ≤ n
    · rw [if_pos h, if_pos h]
      simp only
      rw [num_to_int_int_to_num R hR]
      omega
    · rw [if_neg h, if_neg h]
      simp only
      rw [num_to_int_int_to_num R hR]
      omega
  · intro x hx hne
    obtain ⟨s, m⟩ := x
    obtain ⟨hs, hm⟩ := hx
    cases m with
    | nil =>
      have hs2 : s = -1 ∨ s = 1 := hs
      have hs1 : s = 1 := by
        rcases hs2 with h | h
        · exact absurd (show (s, ([] : List ℕ)) = (-1, []) by rw [h]) hne
        · exact h
      subst hs1
      have h0 : bigint_to_int R (1, ([] : List ℕ)) = 0 := by
        unfold bigint_to_int num_to_int
        ring
      rw [h0, hto 0]
      norm_num [int_to_num_zero R]
    | cons d rest =>
      have hs2 : s = -1 ∨ s = 1 := hs
      have hm2 : is_num R (d :: rest) := hm
      have hpos := num_to_int_pos R hR (d :: rest) hm2 (by simp)
      have hval : ∀ t : ℤ, bigint_to_int R (t, d :: rest) =
          t * (num_to_int R (d :: rest) : ℤ) := fun t => rfl
      rcases hs2 with h | h <;> subst h
      · have hngt : ¬(0 : ℤ) ≤ -1 * (num_to_int R (d :: rest) : ℤ) := by omega
        rw [hval, hto, if_neg hngt, if_neg hngt]
        rw [show (-(-1 * (num_to_int R (d :: rest) : ℤ))).toNat =
              num_to_int R (d :: rest) by omega]
        rw [int_to_num_num_to_int R hR _ hm2]
      · have hge : (0 : ℤ) ≤ 1 * (num_to_int R (d :: rest) : ℤ) := by omega
        rw [hval, hto, if_pos hge, if_pos hge]
        rw [show ((1 * (num_to_int R (d :: rest) : ℤ)).toNat) =
              num_to_int R (d :: rest) by omega]
        rw [int_to_num_num_to_int R hR _ hm2]

/-- Witness for C6 at R = 16 with n = −37 and x = (−1, [5, 2]). -/
theorem C6_sign_round_trip_witness :
    bigint_to_int 16 (int_to_bigint 16 (-37)) = -37 ∧
    int_to_bigint 16 (bigint_to_int 16 (-1, [5, 2])) = (-1, [5, 2]) :=
  ⟨(C6_sign_round_trip 16 (by norm_num)).1 (-37),
   (C6_sign_round_trip 16 (by norm_num)).2.1 (-1, [5, 2]) (by decide) (by decide)⟩

/-- The success predicate of `test__div` (test_biguint.py lines 624-658),
over the integer values of the operands and outputs: if a dividend or
divisor is zero the expected pair is (0, 0); otherwise it is Python's
`divmod(a, b)`, which for non-negative operands is (a / b, a % b). -/
def div_success (a b quotient remainder : ℕ) : Prop :=
  if a = 0 ∨ b = 0 then quotient = 0 ∧ remainder = 0
  else quotient = a / b ∧ remainder = a % b

/-- C7: the expected result of `div` is (0, 0) whenever the dividend or
the divisor is 0 (the predicate accepts that pair without raising), and
otherwise exactly the quotient/remainder pair satisfying
a = b·quotient + remainder with 0 ≤ remainder < b. -/
theorem C7_div_expected_result (a b q r : ℕ) :
    div_success a b q r ↔
      ((a = 0 ∨ b = 0) ∧ q = 0 ∧ r = 0) ∨
      (a ≠ 0 ∧ b ≠ 0 ∧ a = b * q + r ∧ r < b) := by
  unfold div_success
  split_ifs with h
  · constructor
    · intro hqr
      exact Or.inl ⟨h, hqr⟩
    · intro hor
      rcases hor with ⟨_, hqr⟩ | ⟨ha, hb, _⟩
      · exact hqr
      · rcases h with h | h
        · exact absurd h ha
        · exact absurd h hb
  · push_neg at h
    obtain ⟨ha, hb⟩ := h
    have hbpos : 0 < b := Nat.pos_of_ne_zero hb
    constructor
    · rintro ⟨hq, hr⟩
      refine Or.inr ⟨ha, hb, ?_, ?_⟩
      · rw [hq, hr]
        exact (Nat.div_add_mod a b).symm
      · rw [hr]
        exact Nat.mod_lt _ hbpos
    · rintro (⟨hor, _⟩ | ⟨_, _, heq, hlt⟩)
      · rcases hor with h | h
        · exact absurd h ha
        · exact absurd h hb
      · constructor
        · rw [heq, Nat.mul_add_div hbpos, Nat.div_eq_of_lt hlt]
          omega
        · rw [heq, Nat.mul_add_mod, Nat.mod_eq_of_lt hlt]

/-- Modelled from the spec: the digit-level core of biguint_tools'
`num_sub` (not under src) — schoolbook borrow-propagating subtraction of
the digits of `b` from the digits of `a`, little-endian, with a borrow
in {0, 1}; meaningful when value(b) + borrow ≤ value(a) and
b has no more digits than a. -/
def sub_digits (R : ℕ) : List ℕ → List ℕ → ℕ → List ℕ
  | [], _, _ => []
  | da :: a2, b, borrow =>
    if b.headD 0 + borrow ≤ da then
      (da - b.headD 0 - borrow) :: sub_digits R a2 b.tail 0
    else
      (da + R - b.headD 0 - borrow) :: sub_digits R a2 b.tail 1

/-- Drop trailing (most-significant) zero digits — the canonicalization
step applied to a freshly computed digit sequence. -/
def strip_trailing_zeros : List ℕ → List ℕ
  | [] => []
  | d :: rest =>
    match strip_trailing_zeros rest with
    | [] => if d = 0 then [] else [d]
    | r => d :: r

/-- Modelled from the spec: `num_sub` of biguint_tools is not under src;
the spec describes magnitude subtraction returning a (sign, magnitude)
pair whose sign indicates which operand was numerically larger, and the
in-src test `test__utility_sub` fixes the sign to +1 at equality. -/
def num_sub (R : ℕ) (a b : List ℕ) : ℤ × List ℕ :=
  if num_to_int R b ≤ num_to_int R a then
    (1, strip_trailing_zeros (sub_digits R a b 0))
  else
    (-1, strip_trailing_zeros (sub_digits R b a 0))

lemma strip_trailing_zeros_val (R : ℕ) (m : List ℕ) :
    num_to_int R (strip_trailing_zeros m) = num_to_int R m := by
  induction m with
  | nil => rfl
  | cons d rest ih =>
    simp only [strip_trailing_zeros]
    cases hm : strip_trailing_zeros rest with
    | nil =>
      rw [hm] at ih
      have h0 : num_to_int R rest = 0 := by
        simpa [num_to_int] using ih.symm
      split_ifs with hd
      · show (0 : ℕ) = num_to_int R (d :: rest)
        show (0 : ℕ) = d + R * num_to_int R rest
        rw [h0, hd]
        omega
      · show num_to_int R [d] = num_to_int R (d :: rest)
        show d + R * num_to_int R [] = d + R * num_to_int R rest
        rw [h0]
        rfl
    | cons e r2 =>
      rw [hm] at ih
      show num_to_int R (d :: e :: r2) = num_to_int R (d :: rest)
      show d + R * num_to_int R (e :: r2) = d + R * num_to_int R rest
      rw [ih]

lemma sub_digits_val (R : ℕ) (hR : 2 ≤ R) :
    ∀ (a b : List ℕ) (borrow : ℕ), borrow ≤ 1 →
      (∀ d ∈ a, d < R) → (∀ d ∈ b, d < R) →
      b.length ≤ a.length →
      (num_to_int R b : ℤ) + borrow ≤ (num_to_int R a : ℤ) →
      (num_to_int R (sub_digits R a b borrow) : ℤ) =
        (num_to_int R a : ℤ) - num_to_int R b - borrow := by
  intro a
  induction a with
  | nil =>
    intro b borrow hbor hda hdb hlen hval
    have hb : b = [] := List.eq_nil_of_length_eq_zero (Nat.le_zero.mp hlen)
    subst hb
    simp only [sub_digits, num_to_int] at *
    omega
  | cons da a2 ih =>
    intro b borrow hbor hda hdb hlen hval
    have hdaR : da < R := hda da (List.mem_cons_self da a2)
    have hda2 : ∀ d ∈ a2, d < R := fun d hd => hda d (List.mem_cons_of_mem da hd)
    cases b with
    | nil =>
      have hvalN : borrow ≤ da + R * num_to_int R a2 := by
        have : num_to_int R ([] : List ℕ) + borrow ≤ num_to_int R (da :: a2) := by
          exact_mod_cast hval
        simpa [num_to_int] using this
      simp only [sub_digits, List.headD_nil, List.tail_nil, Nat.zero_add]
      split_ifs with hcond
      · have hrec := ih [] 0 (by omega) hda2 (by intro d hd; cases hd)
          (Nat.zero_le _) (by simp [num_to_int])
        norm_num [num_to_int] at hrec
        show ((da - 0 - borrow + R * num_to_int R (sub_digits R a2 [] 0) : ℕ) : ℤ) =
          ((da + R * num_to_int R a2 : ℕ) : ℤ) - (num_to_int R ([] : List ℕ) : ℤ) - borrow
        push_cast
        rw [hrec]
        simp only [num_to_int]
        push_cast
        omega
      · rcases Nat.eq_zero_or_pos (num_to_int R a2) with h0 | h0
        · rw [h0] at hvalN
          omega
        · have hrec := ih [] 1 (le_refl 1) hda2 (by intro d hd; cases hd)
            (Nat.zero_le _) (by simp [num_to_int]; exact_mod_cast h0)
          norm_num [num_to_int] at hrec
          show ((da + R - 0 - borrow + R * num_to_int R (sub_digits R a2 [] 1) : ℕ) : ℤ) =
            ((da + R * num_to_int R a2 : ℕ) : ℤ) - (num_to_int R ([] : List ℕ) : ℤ) - borrow
          push_cast
          rw [hrec]
          have hexp : (R : ℤ) * ((num_to_int R a2 : ℤ) - 1) =
              (R : ℤ) * (num_to_int R a2 : ℤ) - R := by ring
          rw [hexp]
          simp only [num_to_int]
          push_cast
          omega
    | cons db b2 =>
      have hdbR : db < R := hdb db (List.mem_cons_self db b2)
      have hdb2 : ∀ d ∈ b2, d < R := fun d hd => hdb d (List.mem_cons_of_mem db hd)
      have hlen2 : b2.length ≤ a2.length := by
        simp only [List.length_cons] at hlen
        omega
      have hvalN : db + R * num_to_int R b2 + borrow ≤ da + R * num_to_int R a2 := by
        have : num_to_int R (db :: b2) + borrow ≤ num_to_int R (da :: a2) := by
          exact_mod_cast hval
        simpa [num_to_int] using this
      simp only [sub_digits, List.headD_cons, List.tail_cons]
      split_ifs with hcond
      · have hmono : num_to_int R b2 ≤ num_to_int R a2 := by
          have hmul : R * (num_to_int R a2 + 1) = R * num_to_int R a2 + R := by ring
          have hlt : R * num_to_int R b2 < R * (num_to_int R a2 + 1) := by omega
          have := Nat.lt_of_mul_lt_mul_left hlt
          omega
        have hrec := ih b2 0 (by omega) hda2 hdb2 hlen2
          (by push_cast; omega)
        norm_num at hrec
        show ((da - db - borrow + R * num_to_int R (sub_digits R a2 b2 0) : ℕ) : ℤ) =
          ((da + R * num_to_int R a2 : ℕ) : ℤ) -
            ((db + R * num_to_int R b2 : ℕ) : ℤ) - borrow
        push_cast
        rw [hrec]
        have hexp : (R : ℤ) * ((num_to_int R a2 : ℤ) - (num_to_int R b2 : ℤ)) =
            (R : ℤ) * (num_to_int R a2 : ℤ) - (R : ℤ) * (num_to_int R b2 : ℤ) := by
          ring
        rw [hexp]
        omega
      · have hmono : num_to_int R b2 < num_to_int R a2 := by
          have hlt : R * num_to_int R b2 < R * num_to_int R a2 := by omega
          exact Nat.lt_of_mul_lt_mul_left hlt
        have hrec := ih b2 1 (le_refl 1) hda2 hdb2 hlen2
          (by push_cast; omega)
        norm_num at hrec
        show ((da + R - db - borrow + R * num_to_int R (sub_digits R a2 b2 1) : ℕ) : ℤ) =
          ((da + R * num_to_int R a2 : ℕ) : ℤ) -
            ((db + R * num_to_int R b2 : ℕ) : ℤ) - borrow
        push_cast
        rw [hrec]
        have hexp : (R : ℤ) * ((num_to_int R a2 : ℤ) - (num_to_int R b2 : ℤ) - 1) =
            (R : ℤ) * (num_to_int R a2 : ℤ) - (R : ℤ) * (num_to_int R b2 : ℤ) - R := by
          ring
        rw [hexp]
        omega

lemma num_to_int_lt_pow (R : ℕ) (m : List ℕ) (hd : ∀ d ∈ m, d < R) :
    num_to_int R m < R ^ m.length := by
  induction m with
  | nil => norm_num [num_to_int]
  | cons d rest ih =>
    have hdR : d < R := hd d (List.mem_cons_self d rest)
    have hv : num_to_int R rest < R ^ rest.length :=
      ih (fun x hx => hd x (List.mem_cons_of_mem d hx))
    have h1 : R * (num_to_int R rest + 1) ≤ R * R ^ rest.length :=
      Nat.mul_le_mul_left R hv
    have h2 : R * (num_to_int R rest + 1) = R * num_to_int R rest + R := by ring
    have h3 : R ^ (d :: rest).length = R * R ^ rest.length := by
      rw [List.length_cons, pow_succ, Nat.mul_comm]
    show d + R * num_to_int R rest < R ^ (d :: rest).length
    omega

lemma pow_le_num_to_int (R : ℕ) (hR : 2 ≤ R) (m : List ℕ)
    (hm : is_num R m) (hne : m ≠ []) :
    R ^ (m.length - 1) ≤ num_to_int R m := by
  induction m with
  | nil => exact absurd rfl hne
  | cons d rest ih =>
    cases rest with
    | nil =>
      have hd0 : d ≠ 0 := by
        have := hm.2
        simp only [List.getLast?_singleton] at this
        exact fun hc => this (by rw [hc])
      show R ^ ([d].length - 1) ≤ num_to_int R [d]
      show R ^ 0 ≤ d + R * num_to_int R ([] : List ℕ)
      show 1 ≤ d + R * 0
      omega
    | cons d2 rest2 =>
      have hrest : is_num R (d2 :: rest2) :=
        ⟨fun x hx => hm.1 x (List.mem_cons_of_mem d hx),
         by have := hm.2; rwa [List.getLast?_cons_cons] at this⟩
      have hih := ih hrest (by simp)
      have h1 : R * R ^ ((d2 :: rest2).length - 1) ≤ R * num_to_int R (d2 :: rest2) :=
        Nat.mul_le_mul_left R hih
      have hlpos : 1 ≤ (d2 :: rest2).length := by simp
      have h2 : R ^ (d :: d2 :: rest2).length - 0 = R ^ (d :: d2 :: rest2).length := rfl
      have h3 : R ^ ((d :: d2 :: rest2).length - 1) =
          R * R ^ ((d2 :: rest2).length - 1) := by
        have hl : (d :: d2 :: rest2).length - 1 = ((d2 :: rest2).length - 1) + 1 := by
          simp only [List.length_cons]
          omega
        rw [hl, pow_succ, Nat.mul_comm]
      show R ^ ((d :: d2 :: rest2).length - 1) ≤ d + R * num_to_int R (d2 :: rest2)
      omega

lemma len_le_of_val_le (R : ℕ) (hR : 2 ≤ R) (a b : List ℕ)
    (hda : ∀ d ∈ a, d < R) (hb : is_num R b)
    (h : num_to_int R b ≤ num_to_int R a) : b.length ≤ a.length := by
  cases hbe : b with
  | nil => simp
  | cons db b2 =>
    rw [← hbe]
    have h1 : R ^ (b.length - 1) ≤ num_to_int R b :=
      pow_le_num_to_int R hR b hb (by rw [hbe]; simp)
    have h2 : num_to_int R a < R ^ a.length := num_to_int_lt_pow R a hda
    have h3 : R ^ (b.length - 1) < R ^ a.length := by omega
    have h4 : b.length - 1 < a.length := by
      by_contra hc
      push_neg at hc
      exact absurd h3 (not_lt.mpr (Nat.pow_le_pow_right (by omega) hc))
    omega

/-- C8: `num_sub` on canonical magnitudes returns a (sign, magnitude)
pair whose sign tells which operand was larger: (+1, a − b) when
b ≤ a (so +1 at equality) and (−1, b − a) when a < b, where the
magnitude component denotes the stated difference. -/
theorem C8_num_sub_sign_and_value (R : ℕ) (hR : 2 ≤ R) (a b : List ℕ)
    (ha : is_num R a) (hb : is_num R b) :
    (num_to_int R b ≤ num_to_int R a →
      (num_sub R a b).1 = 1 ∧
      (num_to_int R (num_sub R a b).2 : ℤ) =
        (num_to_int R a : ℤ) - (num_to_int R b : ℤ)) ∧
    (num_to_int R a < num_to_int R b →
      (num_sub R a b).1 = -1 ∧
      (num_to_int R (num_sub R a b).2 : ℤ) =
        (num_to_int R b : ℤ) - (num_to_int R a : ℤ)) := by
  constructor
  · intro h
    unfold num_sub
    rw [if_pos h]
    refine ⟨rfl, ?_⟩
    show (num_to_int R (strip_trailing_zeros (sub_digits R a b 0)) : ℤ) = _
    rw [strip_trailing_zeros_val R]
    have := sub_digits_val R hR a b 0 (by omega) ha.1 hb.1
      (len_le_of_val_le R hR a b ha.1 hb h) (by push_cast; omega)
    omega
  · intro h
    unfold num_sub
    rw [if_neg (by omega)]
    refine ⟨rfl, ?_⟩
    show (num_to_int R (strip_trailing_zeros (sub_digits R b a 0)) : ℤ) = _
    rw [strip_trailing_zeros_val R]
    have := sub_digits_val R hR b a 0 (by omega) hb.1 ha.1
      (len_le_of_val_le R hR b a hb.1 ha (by omega)) (by push_cast; omega)
    omega

/-- Witness for C8 at R = 16 with a = [5], b = [7]. -/
theorem C8_num_sub_sign_and_value_witness :
    (num_sub 16 [5] [7]).1 = -1 ∧
    (num_to_int 16 (num_sub 16 [5] [7]).2 : ℤ) =
      (num_to_int 16 [7] : ℤ) - (num_to_int 16 [5] : ℤ) :=
  (C8_num_sub_sign_and_value 16 (by norm_num) [5] [7]
    (by decide) (by decide)).2 (by decide)

end BigNum
